import Mathlib

/-!
Shallow embedding of the PyDraw5 drawing-canvas core: the layer store, the
canvas controller (`CanvasManager`), the undo/redo command log
(`UndoRedoManager`), the hook registry (`HookManager`), and the shape-producing
tools.  Each definition is translated from the corresponding Python source in
`src/`; comments name the modelled function.  Coordinates are modelled as
rationals; Python `None` is modelled by `Option`.
-/

namespace PyDraw

/-- Shape records produced by the tools (Python dicts tagged by `type`):
`rect`/`ellipse` carry x, y, w, h; `line` and `triangle` carry vertex pairs. -/
inductive Shape where
  | rect (x y w h : ℚ)
  | ellipse (x y w h : ℚ)
  | line (x1 y1 x2 y2 : ℚ)
  | triangle (x1 y1 x2 y2 x3 y3 : ℚ)
deriving DecidableEq, Repr

/-- Value stored in a layer's shape list: a shape dict, or Python `None`
(a tool's `place` may return `None`, which is appended as-is). -/
abbrev ShapeVal := Option Shape

/-- Model of a drawing tool (duck-typed object with `make_preview` and
`place`); a `Tool` value is the pair of those two functions. -/
structure Tool where
  makePreview : ℚ → ℚ → ℚ → ℚ → ShapeVal
  place : ℚ → ℚ → ℚ → ℚ → ShapeVal

/-- Model of `canvas/layer.py` `Layer`: name, ordered shape list, visibility
and lock flags. -/
structure Layer where
  name : String
  shapes : List ShapeVal
  visible : Bool
  locked : Bool
deriving DecidableEq, Repr

/-- Model of `Layer.__init__`: empty shapes, visible, unlocked. -/
def Layer.new (name : String) : Layer :=
  { name := name, shapes := [], visible := true, locked := false }

/-- Reified undo/redo closure pair recorded by `CanvasManager.finish_place`:
`record(lambda: layer.shapes.pop(), lambda: layer.shapes.append(shape))`.
The captured layer object is identified by its index in the store at record
time (faithful while no operation reorders or removes layers), and the
captured shape value is stored explicitly. -/
structure Action where
  li : Nat
  shape : ShapeVal
deriving DecidableEq, Repr

/-- Combined state of `CanvasManager` (fields `current_tool`, `placing`,
`start_x`, `start_y`, `preview_shape`, `current_layer_index`, `layers`) and
its injected `UndoRedoManager` (fields `undo_stack`, `redo_stack`, with the
recorded closure pairs reified as `Action`s).  Stack heads are the tops. -/
structure Sys where
  currentTool : Option Tool
  placing : Bool
  startX : ℚ
  startY : ℚ
  previewShape : ShapeVal
  currentLayerIndex : Nat
  layers : List Layer
  undoStack : List Action
  redoStack : List Action

/-! List helpers modelling Python list primitives. -/

/-- Model of in-place update of the list element at index `i` (out of range:
no element changes). -/
def updateAt {α : Type} (i : Nat) (f : α → α) (l : List α) : List α :=
  match l, i with
  | [], _ => []
  | x :: xs, 0 => f x :: xs
  | x :: xs, i + 1 => x :: updateAt i f xs
termination_by structural l

/-- Model of Python `list.insert(n, x)`: inserts before position `n`,
appending when `n` is beyond the end. -/
def pyInsert {α : Type} (n : Nat) (x : α) (l : List α) : List α :=
  match l, n with
  | [], _ => [x]
  | y :: ys, 0 => x :: y :: ys
  | y :: ys, n + 1 => y :: pyInsert n x ys
termination_by structural l

/-- Model of Python `list.pop(n)` for a valid non-negative index `n`:
removes the element at position `n`. -/
def pyRemove {α : Type} (n : Nat) (l : List α) : List α :=
  match l, n with
  | [], _ => []
  | _ :: ys, 0 => ys
  | y :: ys, n + 1 => y :: pyRemove n ys
termination_by structural l

/-! Canvas controller operations, translated from `canvas/canvas_manager.py`. -/

/-- Model of `CanvasManager.get_current_layer`:
`self.layers[self.current_layer_index] if self.layers else None`.
The store invariant keeps the index valid whenever `layers` is non-empty. -/
def getCurrentLayer (s : Sys) : Option Layer :=
  if s.layers.isEmpty then none else s.layers[s.currentLayerIndex]?

/-- Model of `CanvasManager.start_place`: enter the Placing state, record the
drag origin, clear the preview. -/
def startPlace (s : Sys) (x y : ℚ) : Sys :=
  { s with placing := true, startX := x, startY := y, previewShape := none }

/-- Model of `CanvasManager.update_preview`: in the Placing state with a tool
present, store the tool's preview shape; otherwise do nothing. -/
def updatePreview (s : Sys) (x y : ℚ) : Sys :=
  match s.currentTool with
  | some t => if s.placing then
      { s with previewShape := t.makePreview s.startX s.startY x y }
    else s
  | none => s

/-- Model of the commit section of `CanvasManager.finish_place`: if the
current layer exists and is unlocked, append the (hook-transformed) shape
value to it and `record` the closure pair (which clears the redo stack,
per `UndoRedoManager.record`); otherwise leave the state unchanged. -/
def commitShape (v : ShapeVal) (s : Sys) : Sys :=
  match getCurrentLayer s with
  | none => s
  | some layer =>
    if layer.locked then s
    else
      { s with
        layers := updateAt s.currentLayerIndex
          (fun l => { l with shapes := l.shapes ++ [v] }) s.layers,
        undoStack := ⟨s.currentLayerIndex, v⟩ :: s.undoStack,
        redoStack := [] }

/-- Model of `CanvasManager.finish_place`: with a tool present and in the
Placing state, materialize the shape from the drag, pass it through the
`shape.place` hook chain (the injected `hook` function models
`self.hooks.run_hooks('shape.place', shape)`), and commit it; in every case
leave the Placing state and clear the preview. -/
def finishPlace (hook : ShapeVal → ShapeVal) (s : Sys) (x y : ℚ) : Sys :=
  let s1 :=
    match s.currentTool with
    | some t =>
      if s.placing then commitShape (hook (t.place s.startX s.startY x y)) s
      else s
    | none => s
  { s1 with placing := false, previewShape := none }

/-- Model of the recorded undo closure `lambda: layer.shapes.pop()` applied
to the store: removes the last shape of layer `li`; `none` models the
`IndexError` that `pop()` raises on an empty list.  An index no longer in the
store corresponds to a closure mutating an object the store no longer holds,
leaving the store unchanged. -/
def popLastShape (ls : List Layer) (li : Nat) : Option (List Layer) :=
  match ls[li]? with
  | none => some ls
  | some layer =>
    if layer.shapes.isEmpty then none
    else some (updateAt li (fun l => { l with shapes := l.shapes.dropLast }) ls)

/-- Model of the recorded redo closure `lambda: layer.shapes.append(shape)`
applied to the store. -/
def appendShape (ls : List Layer) (a : Action) : List Layer :=
  updateAt a.li (fun l => { l with shapes := l.shapes ++ [a.shape] }) ls

/-- Model of `UndoRedoManager.undo` acting on the combined state: no-op on an
empty undo stack; otherwise pop the top pair, run its undo closure (which may
raise, modelled by `none`), and push the pair onto the redo stack. -/
def sysUndo (s : Sys) : Option Sys :=
  match s.undoStack with
  | [] => some s
  | a :: rest =>
    match popLastShape s.layers a.li with
    | none => none
    | some ls =>
      some { s with layers := ls, undoStack := rest, redoStack := a :: s.redoStack }

/-- Model of `UndoRedoManager.redo` acting on the combined state: no-op on an
empty redo stack; otherwise pop the top pair, run its redo closure (an append,
which cannot raise), and push the pair back onto the undo stack. -/
def sysRedo (s : Sys) : Sys :=
  match s.redoStack with
  | [] => s
  | a :: rest =>
    { s with layers := appendShape s.layers a, redoStack := rest,
             undoStack := a :: s.undoStack }

/-- Model of the default-name logic `name or f"Layer {len+1}"` in
`CanvasManager.add_layer` (Python's `or` treats the empty string as absent). -/
def resolveLayerName (count : Nat) : Option String → String
  | some n => if n = "" then "Layer " ++ toString (count + 1) else n
  | none => "Layer " ++ toString (count + 1)

/-- Model of `CanvasManager.add_layer`: append a fresh layer and make it
current. -/
def addLayer (s : Sys) (name : Option String) : Sys :=
  { s with
    layers := s.layers ++ [Layer.new (resolveLayerName s.layers.length name)],
    currentLayerIndex := s.layers.length }

/-- Model of `CanvasManager.toggle_visibility`: flip the flag when
`0 <= index < len(self.layers)`, otherwise do nothing. -/
def toggleVisibility (s : Sys) (i : Int) : Sys :=
  if 0 ≤ i ∧ i < s.layers.length then
    { s with
      layers := updateAt i.toNat (fun l => { l with visible := !l.visible }) s.layers }
  else s

/-- Model of `CanvasManager.toggle_lock`: flip the flag when the index is in
range, otherwise do nothing. -/
def toggleLock (s : Sys) (i : Int) : Sys :=
  if 0 ≤ i ∧ i < s.layers.length then
    { s with
      layers := updateAt i.toNat (fun l => { l with locked := !l.locked }) s.layers }
  else s

/-- Model of `CanvasManager.switch_layer`: set the current index when in
range, otherwise do nothing. -/
def switchLayer (s : Sys) (i : Int) : Sys :=
  if 0 ≤ i ∧ i < s.layers.length then
    { s with currentLayerIndex := i.toNat }
  else s

/-- Model of `CanvasManager.move_layer`: when both indices are in range, pop
the layer at `fromIdx` and insert it at `toIdx`, updating the current index
only when it equalled `fromIdx`. -/
def moveLayer (s : Sys) (fromIdx toIdx : Int) : Sys :=
  if (0 ≤ fromIdx ∧ fromIdx < s.layers.length) ∧
     (0 ≤ toIdx ∧ toIdx < s.layers.length) then
    match s.layers[fromIdx.toNat]? with
    | none => s
    | some layer =>
      { s with
        layers := pyInsert toIdx.toNat layer (pyRemove fromIdx.toNat s.layers),
        currentLayerIndex :=
          if s.currentLayerIndex = fromIdx.toNat then toIdx.toNat
          else s.currentLayerIndex }
  else s

/-- Model of Python sequence indexing `ls[i]` with `int` index: non-negative
indices from the front, negative indices from the back, `none` for the
`IndexError` cases. -/
def pyGetLayer (ls : List Layer) (i : Int) : Option Layer :=
  if 0 ≤ i then ls[i.toNat]?
  else if 0 ≤ i + ls.length then ls[(i + ls.length).toNat]?
  else none

/-- Model of Python `list.pop(i)` with an `int` index known to be in range. -/
def pyRemoveInt (ls : List Layer) (i : Int) : List Layer :=
  if 0 ≤ i then pyRemove i.toNat ls else pyRemove (i + ls.length).toNat ls

/-- Observable outcome of `CanvasManager.delete_layer`: the resulting state,
whether the "Can't delete the last layer." refusal was printed, and the hook
names dispatched, in order. -/
structure DeleteResult where
  state : Sys
  lastLayerRefusal : Bool
  hooksRun : List String

/-- Model of `CanvasManager.delete_layer`.  `ldHook layer index init` models
the truth value of `run_hooks('layer.delete', True, layer=layer, index=index)`.
The result is `none` when `self.layers[index]` raises `IndexError` (the code
performs no range check); otherwise the early-return paths and the deletion
path are followed as in the source, including the current-index adjustment
`max(0, cur - (1 if index <= cur else 0))`. -/
def deleteLayer (ldHook : Layer → Int → Bool → Bool) (s : Sys) (i : Int) :
    Option DeleteResult :=
  if s.layers.length ≤ 1 then some ⟨s, true, []⟩
  else
    match pyGetLayer s.layers i with
    | none => none
    | some layer =>
      if !(ldHook layer i true) then some ⟨s, false, ["layer.delete"]⟩
      else
        let newIdx : Int :=
          max 0 ((s.currentLayerIndex : Int) -
            (if i ≤ (s.currentLayerIndex : Int) then 1 else 0))
        some ⟨{ s with layers := pyRemoveInt s.layers i,
                       currentLayerIndex := newIdx.toNat },
              false, ["layer.delete", "layer.deleted"]⟩

/-! Tools, translated from `tools/ellipse_tool.py` and `tools/triangle_tool.py`. -/

/-- Model of Python's two-argument `min` on numbers (first argument on
ties). -/
def pyMin (a b : ℚ) : ℚ :=
  if a ≤ b then a else b

/-- Model of Python's `abs` on numbers. -/
def pyAbs (a : ℚ) : ℚ :=
  if 0 ≤ a then a else -a

namespace EllipseTool

/-- Model of `EllipseTool.place`: width/height are the absolute drag extents
and the stored x, y are the ellipse center (`min` corner plus half extent). -/
def place (x1 y1 x2 y2 : ℚ) : ShapeVal :=
  let w := pyAbs (x2 - x1)
  let h := pyAbs (y2 - y1)
  let x := pyMin x1 x2
  let y := pyMin y1 y2
  some (Shape.ellipse (x + w / 2) (y + h / 2) w h)

/-- Model of `EllipseTool.make_preview` (same computation as `place`). -/
def makePreview (x1 y1 x2 y2 : ℚ) : ShapeVal :=
  place x1 y1 x2 y2

/-- The ellipse tool object. -/
def tool : Tool := ⟨makePreview, place⟩

end EllipseTool

namespace TriangleTool

/-- Model of `TriangleTool.place`: always returns Python `None` (placement is
meant to happen through `handle_click`, which `finish_place` never calls). -/
def place (_x1 _y1 _x2 _y2 : ℚ) : ShapeVal :=
  none

/-- Model of `TriangleTool.make_preview`: returns the tool's stored
`self.preview` field, here passed in as `preview`. -/
def makePreview (preview : ShapeVal) (_x1 _y1 _x2 _y2 : ℚ) : ShapeVal :=
  preview

/-- The triangle tool object with stored preview state `preview`. -/
def tool (preview : ShapeVal) : Tool := ⟨makePreview preview, place⟩

end TriangleTool

/-! Generic undo/redo log, translated from `state/undo_redo.py`.  The recorded
closures are opaque values of type `A`; `undo`/`redo` return the invoked
closure (if any) alongside the new stacks, so that "invokes no action" is
observable. -/

/-- Model of `UndoRedoManager`: two stacks of (undo-closure, redo-closure)
pairs, heads being the tops. -/
structure UndoRedo (A : Type) where
  undoStack : List (A × A)
  redoStack : List (A × A)
deriving DecidableEq

/-- Model of `UndoRedoManager.record`: push the pair onto the undo stack and
clear the redo stack. -/
def UndoRedo.record {A : Type} (m : UndoRedo A) (u r : A) : UndoRedo A :=
  ⟨(u, r) :: m.undoStack, []⟩

/-- Model of `UndoRedoManager.undo`: no-op returning no invoked action on an
empty undo stack; otherwise pop, report the undo closure as invoked, and push
the pair onto the redo stack. -/
def UndoRedo.undo {A : Type} (m : UndoRedo A) : UndoRedo A × Option A :=
  match m.undoStack with
  | [] => (m, none)
  | (u, r) :: rest => (⟨rest, (u, r) :: m.redoStack⟩, some u)

/-- Model of `UndoRedoManager.redo`: no-op returning no invoked action on an
empty redo stack; otherwise pop, report the redo closure as invoked, and push
the pair back onto the undo stack. -/
def UndoRedo.redo {A : Type} (m : UndoRedo A) : UndoRedo A × Option A :=
  match m.redoStack with
  | [] => (m, none)
  | (u, r) :: rest => (⟨(u, r) :: m.undoStack, rest⟩, some r)

/-! Concrete states used by witnesses and counterexamples. -/

/-- Model of `CanvasManager.__init__` together with a fresh
`UndoRedoManager.__init__`: no tool, Idle, empty store, empty stacks. -/
def initSys : Sys :=
  { currentTool := none, placing := false, startX := 0, startY := 0,
    previewShape := none, currentLayerIndex := 0, layers := [],
    undoStack := [], redoStack := [] }

/-- Store with a single fresh layer and the ellipse tool active. -/
def ellipseSys : Sys :=
  { initSys with currentTool := some EllipseTool.tool,
                 layers := [Layer.new "Layer 1"] }

/-- Store with two fresh layers. -/
def twoLayerSys : Sys :=
  { initSys with layers := [Layer.new "Layer 1", Layer.new "Layer 2"],
                 currentLayerIndex := 1 }

/-- Store with three fresh layers named A, B, C, the middle one current. -/
def threeLayerSys : Sys :=
  { initSys with layers := [Layer.new "A", Layer.new "B", Layer.new "C"],
                 currentLayerIndex := 1 }

/-- A locked single layer. -/
def lockedLayer : Layer :=
  { Layer.new "Layer 1" with locked := true }

/-- Store mid-placement whose only layer is locked. -/
def lockedSys : Sys :=
  { initSys with currentTool := some EllipseTool.tool, placing := true,
                 layers := [lockedLayer] }

/-- Store mid-placement with the triangle tool active on one fresh layer. -/
def triangleSys : Sys :=
  { initSys with currentTool := some (TriangleTool.tool none), placing := true,
                 layers := [Layer.new "Layer 1"] }

/-! Hook registry, translated from `hooks/hook_manager.py`.  Callback values
are typed by `α` per hook name; context arguments (`*args`, `**kwargs`) are
closed over inside the callback. -/

/-- Hook callback: receives the current value and returns a replacement, or
`none` modelling Python's `return None` ("no change"). -/
abbrev HookCb (α : Type) := α → Option α

/-- Priority order on registered hook entries. -/
def priLE {α : Type} (a b : Int × HookCb α) : Prop :=
  a.1 ≤ b.1

/-- Entries of a callback list carrying priority `p`, in order. -/
def prFilter {α : Type} (p : Int) (l : List (Int × HookCb α)) :
    List (Int × HookCb α) :=
  l.filter (fun x => x.1 == p)

/-- Tagging callback, used to observe execution order: appends its tag to the
list being threaded through the hook chain. -/
def tagCb (k : Nat) : HookCb (List Nat) :=
  fun v => some (v ++ [k])

/-- Body of the `run_hooks` loop for one callback:
`result = callback(value); if result is not None: value = result`. -/
def hookStep {α : Type} (v : α) (pc : Int × HookCb α) : α :=
  match pc.2 v with
  | some r => r
  | none => v

/-- The `run_hooks` loop over a callback list: a left fold of `hookStep`. -/
def hookFold {α : Type} (v : α) (l : List (Int × HookCb α)) : α :=
  l.foldl hookStep v

/-- Stable insertion of a (priority, callback) pair into a priority-sorted
list: the new pair lands after every entry of priority ≤ its own. -/
def hookInsert {α : Type} (x : Int × HookCb α) :
    List (Int × HookCb α) → List (Int × HookCb α)
  | [] => [x]
  | y :: ys => if x.1 < y.1 then x :: y :: ys else y :: hookInsert x ys

/-- Model of Python's `list.sort(key=lambda x: x[0])`: Python's sort is the
stable sort by priority, realized here by left-to-right stable insertion. -/
def pySortByPriority {α : Type} (l : List (Int × HookCb α)) :
    List (Int × HookCb α) :=
  l.foldl (fun acc x => hookInsert x acc) []

/-- Model of `HookManager`: the `_hooks` dict as a total function from hook
name to callback list; absent names map to `[]`, matching
`self._hooks.get(name, [])`. -/
structure HookManager (α : Type) where
  hooks : String → List (Int × HookCb α)

/-- Model of `HookManager.__init__`: the empty registry. -/
def HookManager.empty {α : Type} : HookManager α :=
  ⟨fun _ => []⟩

/-- Model of `HookManager.add_hook`: append the (priority, callback) pair to
the name's list and re-sort that list stably by priority. -/
def addHook {α : Type} (m : HookManager α) (name : String) (p : Int)
    (cb : HookCb α) : HookManager α :=
  ⟨fun n => if n = name then pySortByPriority (m.hooks name ++ [(p, cb)])
            else m.hooks n⟩

/-- Model of `HookManager.run_hooks`: fold the registered callback chain of
`name` over the initial value. -/
def runHooks {α : Type} (m : HookManager α) (name : String) (v : α) : α :=
  hookFold v (m.hooks name)

/-- Registry built by a sequence of `add_hook(name, callback, priority)`
calls, each event a (name, priority, callback) triple, applied in order. -/
def buildHookManager {α : Type} (rs : List (String × Int × HookCb α)) :
    HookManager α :=
  rs.foldl (fun m r => addHook m r.1 r.2.1 r.2.2) HookManager.empty

/-- Registration events for a given name, in registration order. -/
def regsFor {α : Type} (name : String) (rs : List (String × Int × HookCb α)) :
    List (Int × HookCb α) :=
  (rs.filter (fun r => r.1 == name)).map (fun r => r.2)

/-- Modelled from the spec's words, for comparison with the source-derived
registry: "ordered ascending by priority with equal priorities in
registration order" — concatenate, over the distinct priorities in ascending
order, the entries carrying that priority in their original order. -/
def specSorted {α : Type} (l : List (Int × HookCb α)) :
    List (Int × HookCb α) :=
  ((l.map Prod.fst).toFinset.sort (· ≤ ·)).flatMap (fun p => prFilter p l)

/-! Placement sequences and iterated undo, for the round-trip claims. -/

/-- Drag descriptor for one placement: press point, then release point. -/
structure Drag where
  sx : ℚ
  sy : ℚ
  ex : ℚ
  ey : ℚ

/-- Press then release: `start_place(sx, sy)` followed by
`finish_place(ex, ey)`. -/
def placeOnce (hook : ShapeVal → ShapeVal) (s : Sys) (d : Drag) : Sys :=
  finishPlace hook (startPlace s d.sx d.sy) d.ex d.ey

/-- A sequence of drags, each a `start_place`/`finish_place` pair. -/
def placeSeq (hook : ShapeVal → ShapeVal) (s : Sys) (ds : List Drag) : Sys :=
  ds.foldl (placeOnce hook) s

/-- Iterated `undo`: perform `n` undo calls, `none` if any raises. -/
def undoN : Nat → Sys → Option Sys
  | 0, s => some s
  | n + 1, s => (undoN n s).bind sysUndo

/-- Shapes contributed to layer `li` by the still-undoable recorded actions,
in bottom-to-top (oldest-first) stack order. -/
def undoShapesFor (li : Nat) : List Action → List ShapeVal
  | [] => []
  | a :: rest =>
    undoShapesFor li rest ++ (if a.li = li then [a.shape] else [])

/-- Coherence of a combined state: every recorded action targets a layer
still in range, and every layer's shape list ends with exactly the shapes of
its still-undoable recorded actions, oldest first.  This is the invariant
that makes the recorded pop/append closure pairs exact inverses. -/
structure Coherent (s : Sys) : Prop where
  undoRange : ∀ a ∈ s.undoStack, a.li < s.layers.length
  redoRange : ∀ a ∈ s.redoStack, a.li < s.layers.length
  tailShapes : ∀ (li : Nat) (layer : Layer), s.layers[li]? = some layer →
    ∃ pre, layer.shapes = pre ++ undoShapesFor li s.undoStack

/-- States reachable from a fresh undo/redo manager (both stacks empty) via
the canvas operations that drive the undo log: placement, preview, undo,
redo, layer switching, flag toggles and layer creation.  (Layer deletion and
reordering are outside this claim's scenario: the recorded closures capture
layer objects, which the index-reified `Action` tracks only while the layer
order is stable.) -/
inductive Reach (hook : ShapeVal → ShapeVal) : Sys → Prop where
  | base (s : Sys) : s.undoStack = [] → s.redoStack = [] → Reach hook s
  | startP {s : Sys} (x y : ℚ) : Reach hook s → Reach hook (startPlace s x y)
  | preview {s : Sys} (x y : ℚ) : Reach hook s → Reach hook (updatePreview s x y)
  | finish {s : Sys} (x y : ℚ) : Reach hook s → Reach hook (finishPlace hook s x y)
  | undoStep {s s' : Sys} : Reach hook s → sysUndo s = some s' → Reach hook s'
  | redoStep {s : Sys} : Reach hook s → Reach hook (sysRedo s)
  | switch {s : Sys} (i : Int) : Reach hook s → Reach hook (switchLayer s i)
  | vis {s : Sys} (i : Int) : Reach hook s → Reach hook (toggleVisibility s i)
  | lock {s : Sys} (i : Int) : Reach hook s → Reach hook (toggleLock s i)
  | add {s : Sys} (nm : Option String) : Reach hook s → Reach hook (addLayer s nm)

/-! Helper lemmas about the Python-list models. -/

theorem length_updateAt {α : Type} (i : Nat) (f : α → α) (l : List α) :
    (updateAt i f l).length = l.length := by
  induction l generalizing i with
  | nil => rfl
  | cons x xs ih =>
    cases i with
    | zero => rfl
    | succ n => simpa [updateAt] using ih n

theorem length_pyInsert {α : Type} (n : Nat) (x : α) (l : List α) :
    (pyInsert n x l).length = l.length + 1 := by
  induction l generalizing n with
  | nil => rfl
  | cons y ys ih =>
    cases n with
    | zero => rfl
    | succ m => simpa [pyInsert] using ih m

theorem length_pyRemove {α : Type} (n : Nat) (l : List α) (h : n < l.length) :
    (pyRemove n l).length = l.length - 1 := by
  induction l generalizing n with
  | nil => simp at h
  | cons y ys ih =>
    cases n with
    | zero => rfl
    | succ m =>
      have hm : m < ys.length := by simpa using h
      have hy : 0 < ys.length := Nat.lt_of_le_of_lt (Nat.zero_le m) hm
      simp only [pyRemove, List.length_cons, ih m hm]
      omega

theorem getElem?_updateAt_self {α : Type} (i : Nat) (f : α → α) (l : List α) :
    (updateAt i f l)[i]? = l[i]?.map f := by
  induction l generalizing i with
  | nil => rfl
  | cons x xs ih =>
    cases i with
    | zero => simp [updateAt]
    | succ n => simpa [updateAt] using ih n

theorem getElem?_updateAt_ne {α : Type} (i j : Nat) (f : α → α) (l : List α)
    (h : i ≠ j) :
    (updateAt i f l)[j]? = l[j]? := by
  induction l generalizing i j with
  | nil => rfl
  | cons x xs ih =>
    cases i with
    | zero =>
      cases j with
      | zero => exact absurd rfl h
      | succ m => simp [updateAt]
    | succ n =>
      cases j with
      | zero => simp [updateAt]
      | succ m => simpa [updateAt] using ih n m (fun hc => h (by omega))

theorem updateAt_updateAt {α : Type} (i : Nat) (f g : α → α) (l : List α) :
    updateAt i g (updateAt i f l) = updateAt i (fun x => g (f x)) l := by
  induction l generalizing i with
  | nil => rfl
  | cons x xs ih =>
    cases i with
    | zero => rfl
    | succ n => simpa [updateAt] using ih n

theorem updateAt_congr {α : Type} (i : Nat) (f g : α → α) (l : List α)
    (h : ∀ x, f x = g x) :
    updateAt i f l = updateAt i g l := by
  induction l generalizing i with
  | nil => rfl
  | cons x xs ih =>
    cases i with
    | zero => simp [updateAt, h x]
    | succ n => simpa [updateAt] using ih n

theorem updateAt_id {α : Type} (i : Nat) (l : List α) :
    updateAt i (fun x => x) l = l := by
  induction l generalizing i with
  | nil => rfl
  | cons x xs ih =>
    cases i with
    | zero => rfl
    | succ n => simpa [updateAt] using ih n

theorem isEmpty_false_of_length_pos {α : Type} (l : List α)
    (h : 0 < l.length) : l.isEmpty = false := by
  cases l with
  | nil => simp at h
  | cons x xs => rfl

theorem getElem?_pyInsert_self {α : Type} (n : Nat) (x : α) (l : List α)
    (h : n ≤ l.length) :
    (pyInsert n x l)[n]? = some x := by
  induction l generalizing n with
  | nil =>
    have : n = 0 := Nat.le_zero.mp h
    subst this; rfl
  | cons y ys ih =>
    cases n with
    | zero => rfl
    | succ m => simpa [pyInsert] using ih m (Nat.succ_le_succ_iff.mp h)

/-! Claim theorems. -/

/-- C4: after any `record(undoAction, redoAction)` call on any undo/redo
manager state, the redo stack is empty and an immediately following `redo` is
a no-op: it returns the same stacks and invokes no action.  The state `m` is
arbitrary, so in particular this holds when `record` is called after any
number of `undo` calls. -/
theorem record_clears_redo_and_redo_is_noop {A : Type} (m : UndoRedo A)
    (u r : A) :
    (m.record u r).redoStack = [] ∧
    (m.record u r).redo = (m.record u r, none) :=
  ⟨rfl, rfl⟩

/-- C7: on a store with exactly one layer, `delete_layer` leaves the state
completely unchanged for every index, reports the last-layer refusal, and
dispatches neither the `layer.delete` nor the `layer.deleted` hook. -/
theorem delete_layer_single_layer_refusal (ldHook : Layer → Int → Bool → Bool)
    (s : Sys) (i : Int) (h : s.layers.length = 1) :
    deleteLayer ldHook s i = some ⟨s, true, []⟩ := by
  unfold deleteLayer
  rw [if_pos (by omega)]

/-- Witness for C7 at a concrete one-layer store and index. -/
theorem delete_layer_single_layer_refusal_witness :
    deleteLayer (fun _ _ b => b) ellipseSys 0 = some ⟨ellipseSys, true, []⟩ :=
  delete_layer_single_layer_refusal (fun _ _ b => b) ellipseSys 0 (by decide)

/-- C8: in the Placing state with an existing, locked current layer,
`finish_place` changes nothing except leaving the Placing state and clearing
the preview: every layer's shape list and both undo/redo stacks are untouched
and no error is surfaced. -/
theorem finish_place_locked_layer_is_silent_noop (hook : ShapeVal → ShapeVal)
    (s : Sys) (x y : ℚ) (layer : Layer)
    (hp : s.placing = true) (hl : getCurrentLayer s = some layer)
    (hlock : layer.locked = true) :
    finishPlace hook s x y = { s with placing := false, previewShape := none } := by
  cases htool : s.currentTool with
  | none => simp [finishPlace, htool]
  | some t => simp [finishPlace, commitShape, htool, hp, hl, hlock]

/-- Witness for C8 at a concrete locked-layer state. -/
theorem finish_place_locked_layer_witness :
    finishPlace id lockedSys 5 5 =
      { lockedSys with placing := false, previewShape := none } :=
  finish_place_locked_layer_is_silent_noop id lockedSys 5 5 lockedLayer
    rfl rfl rfl

/-- C9 (counterexample): dragging the ellipse tool from (0,0) to (20,20) with
no `shape.place` callbacks registered commits a record different from the
corner-based {ellipse, x:0, y:0, w:20, h:20} stated by the claim. -/
theorem ellipse_drag_is_not_corner_convention :
    (placeOnce (runHooks HookManager.empty "shape.place") ellipseSys
        ⟨0, 0, 20, 20⟩).layers.map Layer.shapes ≠
      [[some (Shape.ellipse 0 0 20 20)]] := by
  norm_num [placeOnce, finishPlace, commitShape, startPlace, getCurrentLayer,
    ellipseSys, initSys, EllipseTool.tool, EllipseTool.place, Layer.new,
    runHooks, hookFold, HookManager.empty, updateAt, pyMin, pyAbs]

/-- C9 (amended): dragging the ellipse tool from (0,0) to (20,20) with no
`shape.place` callbacks registered yields the record
{type: ellipse, x: 10, y: 10, w: 20, h: 20} — the stored x, y are the ellipse
center, not the drag corner. -/
theorem ellipse_drag_center_convention :
    (placeOnce (runHooks HookManager.empty "shape.place") ellipseSys
        ⟨0, 0, 20, 20⟩).layers.map Layer.shapes =
      [[some (Shape.ellipse 10 10 20 20)]] := by
  norm_num [placeOnce, finishPlace, commitShape, startPlace, getCurrentLayer,
    ellipseSys, initSys, EllipseTool.tool, EllipseTool.place, Layer.new,
    runHooks, hookFold, HookManager.empty, updateAt, pyMin, pyAbs]

/-- C6 (counterexample): `delete_layer` performs no range check, so on a
two-layer store the out-of-range index 2 hits `self.layers[index]` and raises
`IndexError` (modelled by `none`) instead of being turned into a no-op. -/
theorem delete_layer_out_of_range_is_fatal :
    deleteLayer (fun _ _ b => b) twoLayerSys 2 = none := rfl

/-- C6 (amended): the four guarded index-taking operations —
`toggle_visibility`, `toggle_lock`, `switch_layer` and `move_layer` — detect
every out-of-range index and turn the call into a no-op, never failing;
`delete_layer` is not guarded this way. -/
theorem guarded_index_ops_out_of_range_are_noops (s : Sys) (i : Int)
    (h : ¬(0 ≤ i ∧ i < s.layers.length)) :
    toggleVisibility s i = s ∧ toggleLock s i = s ∧ switchLayer s i = s ∧
    ∀ j : Int, moveLayer s i j = s ∧ moveLayer s j i = s := by
  refine ⟨?_, ?_, ?_, fun j => ⟨?_, ?_⟩⟩
  · rw [toggleVisibility, if_neg h]
  · rw [toggleLock, if_neg h]
  · rw [switchLayer, if_neg h]
  · rw [moveLayer, if_neg (fun hc => h hc.1)]
  · rw [moveLayer, if_neg (fun hc => h hc.2)]

/-- Witness for the amended C6 at a concrete store and out-of-range index. -/
theorem guarded_index_ops_out_of_range_witness :
    toggleVisibility twoLayerSys 5 = twoLayerSys ∧
    toggleLock twoLayerSys 5 = twoLayerSys ∧
    switchLayer twoLayerSys 5 = twoLayerSys ∧
    moveLayer twoLayerSys 5 0 = twoLayerSys := by
  have h := guarded_index_ops_out_of_range_are_noops twoLayerSys 5 (by decide)
  exact ⟨h.1, h.2.1, h.2.2.1, (h.2.2.2 0).1⟩

/-- C3 (counterexample): moving a non-current layer across the current
position changes which layer is current: on layers [A, B, C] with B current,
`move_layer(0, 2)` leaves the current index at 1, which now holds C. -/
theorem move_layer_changes_current_layer_identity :
    getCurrentLayer (moveLayer threeLayerSys 0 2) ≠
      getCurrentLayer threeLayerSys := by
  decide

/-- C3 (amended): `move_layer` preserves the identity of the current layer
when the moved layer is the current one (`from_index` equals the current
index); the counterexample shows identity is not preserved in general. -/
theorem move_layer_preserves_current_when_current_moved (s : Sys)
    (fi ti : Int) (hf0 : 0 ≤ fi) (hf : fi < s.layers.length)
    (ht0 : 0 ≤ ti) (ht : ti < s.layers.length)
    (hcur : (s.currentLayerIndex : Int) = fi) :
    getCurrentLayer (moveLayer s fi ti) = getCurrentLayer s := by
  have hfn : fi.toNat < s.layers.length := by omega
  have htn : ti.toNat < s.layers.length := by omega
  have hcn : s.currentLayerIndex = fi.toNat := by omega
  obtain ⟨layer, hL⟩ : ∃ layer, s.layers[fi.toNat]? = some layer :=
    ⟨_, List.getElem?_eq_getElem hfn⟩
  have hlen : 0 < s.layers.length := Nat.lt_of_le_of_lt (Nat.zero_le _) hfn
  rw [moveLayer, if_pos ⟨⟨hf0, hf⟩, ⟨ht0, ht⟩⟩, hL]
  have hlen' : (pyInsert ti.toNat layer (pyRemove fi.toNat s.layers)).length =
      s.layers.length := by
    rw [length_pyInsert, length_pyRemove fi.toNat s.layers hfn]; omega
  have hne : (pyInsert ti.toNat layer (pyRemove fi.toNat s.layers)).isEmpty = false :=
    isEmpty_false_of_length_pos _ (by omega)
  have hne0 : s.layers.isEmpty = false :=
    isEmpty_false_of_length_pos _ (by omega)
  rw [getCurrentLayer, getCurrentLayer]
  simp only [hne, hne0, Bool.false_eq_true, if_false, hcn, if_pos]
  rw [getElem?_pyInsert_self ti.toNat layer (pyRemove fi.toNat s.layers)
    (by rw [length_pyRemove fi.toNat s.layers hfn]; omega), hL]

/-- Witness for the amended C3: moving the current layer from index 1 to 0
keeps layer B current. -/
theorem move_layer_preserves_current_witness :
    getCurrentLayer (moveLayer threeLayerSys 1 0) =
      getCurrentLayer threeLayerSys :=
  move_layer_preserves_current_when_current_moved threeLayerSys 1 0
    (by decide) (by decide) (by decide) (by decide) (by decide)

/-- C10: `TriangleTool.place` returns Python `None` for every drag, and when
the triangle tool is active, the controller is Placing, no `shape.place`
callback replaces the `None`, and the current layer exists and is unlocked,
`finish_place` appends `None` to that layer's shape list and records the
undo/redo closure pair for it (clearing the redo stack). -/
theorem triangle_place_none_is_committed :
    (∀ x1 y1 x2 y2 : ℚ, TriangleTool.place x1 y1 x2 y2 = none) ∧
    ∀ (hook : ShapeVal → ShapeVal) (pv : ShapeVal) (s : Sys) (x y : ℚ)
      (layer : Layer),
      s.currentTool = some (TriangleTool.tool pv) → s.placing = true →
      hook none = none → getCurrentLayer s = some layer →
      layer.locked = false →
      (finishPlace hook s x y).layers =
        updateAt s.currentLayerIndex
          (fun l => { l with shapes := l.shapes ++ [(none : ShapeVal)] })
          s.layers ∧
      (finishPlace hook s x y).undoStack =
        ⟨s.currentLayerIndex, none⟩ :: s.undoStack ∧
      (finishPlace hook s x y).redoStack = [] := by
  refine ⟨fun _ _ _ _ => rfl, ?_⟩
  intro hook pv s x y layer htool hp hn hl hlock
  simp [finishPlace, commitShape, htool, hp, hn, hl, hlock,
    TriangleTool.tool, TriangleTool.place]

/-- A committed placement in full: `start_place` then `finish_place` with a
tool present and the current layer in range and unlocked appends the
hook-transformed shape, records the closure pair, and clears the redo
stack. -/
theorem placeOnce_commit (hook : ShapeVal → ShapeVal) (s : Sys) (t : Tool)
    (d : Drag) (layer : Layer) (htool : s.currentTool = some t)
    (hL : s.layers[s.currentLayerIndex]? = some layer)
    (hlock : layer.locked = false) :
    placeOnce hook s d =
      { s with
        placing := false, previewShape := none,
        startX := d.sx, startY := d.sy,
        layers := updateAt s.currentLayerIndex
          (fun l => { l with
            shapes := l.shapes ++ [hook (t.place d.sx d.sy d.ex d.ey)] })
          s.layers,
        undoStack :=
          ⟨s.currentLayerIndex, hook (t.place d.sx d.sy d.ex d.ey)⟩ ::
            s.undoStack,
        redoStack := [] } := by
  have hlen : s.currentLayerIndex < s.layers.length :=
    (List.getElem?_eq_some.mp hL).choose
  have hne : s.layers.isEmpty = false :=
    isEmpty_false_of_length_pos _ (Nat.lt_of_le_of_lt (Nat.zero_le _) hlen)
  simp [placeOnce, finishPlace, startPlace, commitShape, getCurrentLayer,
    htool, hL, hlock, hne]

/-- C1: from any store whose current layer exists and is unlocked and with
any tool active, a sequence of n committed placements (each a
`start_place`/`finish_place` pair, which calls `record`) followed by exactly
n `undo` calls raises nothing and returns every layer's shape sequence — in
fact the whole layer list and the undo stack — to its exact state before the
sequence, in both content and order. -/
theorem place_seq_then_undo_seq_restores_layers (hook : ShapeVal → ShapeVal)
    (ds : List Drag) (s : Sys) (t : Tool) (layer : Layer)
    (htool : s.currentTool = some t)
    (hL : s.layers[s.currentLayerIndex]? = some layer)
    (hlock : layer.locked = false) :
    ∃ u, undoN ds.length (placeSeq hook s ds) = some u ∧
      u.layers = s.layers ∧ u.undoStack = s.undoStack := by
  induction ds generalizing s layer with
  | nil => exact ⟨s, rfl, rfl, rfl⟩
  | cons d ds ih =>
    set v := hook (t.place d.sx d.sy d.ex d.ey) with hv
    set s1 := placeOnce hook s d with hs1
    have hs1eq : s1 =
        { s with
          placing := false, previewShape := none,
          startX := d.sx, startY := d.sy,
          layers := updateAt s.currentLayerIndex
            (fun l => { l with shapes := l.shapes ++ [v] }) s.layers,
          undoStack := ⟨s.currentLayerIndex, v⟩ :: s.undoStack,
          redoStack := [] } :=
      placeOnce_commit hook s t d layer htool hL hlock
    have hL1 : s1.layers[s1.currentLayerIndex]? =
        some { layer with shapes := layer.shapes ++ [v] } := by
      rw [hs1eq]
      show (updateAt s.currentLayerIndex
        (fun l => { l with shapes := l.shapes ++ [v] }) s.layers)[
          s.currentLayerIndex]? = _
      rw [getElem?_updateAt_self, hL]
      rfl
    have htool1 : s1.currentTool = some t := by rw [hs1eq]; exact htool
    have hlock1 : ({ layer with shapes := layer.shapes ++ [v] } : Layer).locked = false :=
      hlock
    obtain ⟨u, hu, hul, hus⟩ := ih s1 _ htool1 hL1 hlock1
    have hseq : placeSeq hook s (d :: ds) = placeSeq hook s1 ds := rfl
    have hlen : (d :: ds).length = ds.length + 1 := rfl
    have hpop : popLastShape u.layers s.currentLayerIndex = some s.layers := by
      have hul' : u.layers = updateAt s.currentLayerIndex
          (fun l => { l with shapes := l.shapes ++ [v] }) s.layers := by
        rw [hul, hs1eq]
      have hemp : (layer.shapes ++ [v]).isEmpty = false :=
        isEmpty_false_of_length_pos _ (by simp)
      have hget : (updateAt s.currentLayerIndex
          (fun l => { l with shapes := l.shapes ++ [v] }) s.layers)[
            s.currentLayerIndex]? =
          some { layer with shapes := layer.shapes ++ [v] } := by
        rw [getElem?_updateAt_self, hL]; rfl
      rw [hul']
      unfold popLastShape
      rw [hget]
      simp only [hemp, Bool.false_eq_true, if_false]
      rw [updateAt_updateAt,
        updateAt_congr _ _ (fun l => l) _
          (fun l => by simp [List.dropLast_concat]),
        updateAt_id]
    have hus' : u.undoStack = ⟨s.currentLayerIndex, v⟩ :: s.undoStack := by
      rw [hus, hs1eq]
    refine ⟨{ u with
              layers := s.layers
              undoStack := s.undoStack
              redoStack := ⟨s.currentLayerIndex, v⟩ :: u.redoStack },
            ?_, rfl, rfl⟩
    rw [hseq, hlen]
    have hstep : undoN (ds.length + 1) (placeSeq hook s1 ds) =
        (undoN ds.length (placeSeq hook s1 ds)).bind sysUndo := rfl
    rw [hstep, hu]
    show sysUndo u = _
    unfold sysUndo
    rw [hus']
    simp only [hpop]

/-- Witness for C10 at a concrete triangle-tool state. -/
theorem triangle_place_none_witness :
    (finishPlace id triangleSys 3 4).layers =
      updateAt 0 (fun l => { l with shapes := l.shapes ++ [(none : ShapeVal)] })
        triangleSys.layers ∧
    (finishPlace id triangleSys 3 4).undoStack = [⟨0, none⟩] ∧
    (finishPlace id triangleSys 3 4).redoStack = [] :=
  triangle_place_none_is_committed.2 id none triangleSys 3 4
    (Layer.new "Layer 1") rfl rfl rfl rfl rfl

/-- Witness for C1: two committed ellipse placements followed by two undo
calls restore the one-layer store. -/
theorem place_seq_then_undo_seq_witness :
    ∃ u, undoN 2 (placeSeq id ellipseSys
        [⟨0, 0, 1, 1⟩, ⟨0, 0, 2, 2⟩]) = some u ∧
      u.layers = ellipseSys.layers ∧ u.undoStack = ellipseSys.undoStack :=
  place_seq_then_undo_seq_restores_layers id
    [⟨0, 0, 1, 1⟩, ⟨0, 0, 2, 2⟩] ellipseSys EllipseTool.tool
    (Layer.new "Layer 1") rfl rfl rfl

/-! Machinery for the undo-then-redo round trip (C5): the coherence invariant
is established for every reachable state, and makes the recorded pop/append
closures exact inverses. -/

theorem undoShapesFor_cons_self (a : Action) (st : List Action) :
    undoShapesFor a.li (a :: st) = undoShapesFor a.li st ++ [a.shape] := by
  simp [undoShapesFor]

theorem undoShapesFor_cons_ne (li : Nat) (a : Action) (st : List Action)
    (h : a.li ≠ li) :
    undoShapesFor li (a :: st) = undoShapesFor li st := by
  simp [undoShapesFor, h]

theorem undoShapesFor_eq_nil (li : Nat) (st : List Action)
    (h : ∀ a ∈ st, a.li ≠ li) :
    undoShapesFor li st = [] := by
  induction st with
  | nil => rfl
  | cons a rest ih =>
    rw [undoShapesFor_cons_ne li a rest (h a (List.mem_cons_self a rest)),
      ih (fun b hb => h b (List.mem_cons_of_mem a hb))]

theorem updateAt_eq_self {α : Type} (i : Nat) (g : α → α) (l : List α)
    (x : α) (hx : l[i]? = some x) (hgx : g x = x) :
    updateAt i g l = l := by
  induction l generalizing i with
  | nil => rfl
  | cons y ys ih =>
    cases i with
    | zero =>
      have : y = x := by simpa using hx
      subst this
      simp [updateAt, hgx]
    | succ n =>
      have : ys[n]? = some x := by simpa using hx
      simp [updateAt, ih n this]

theorem sysUndo_cons (s : Sys) (a : Action) (rest : List Action)
    (hstack : s.undoStack = a :: rest) (ls : List Layer)
    (hpop : popLastShape s.layers a.li = some ls) :
    sysUndo s = some { s with layers := ls, undoStack := rest,
                              redoStack := a :: s.redoStack } := by
  unfold sysUndo
  rw [hstack]
  simp only [hpop]

theorem sysRedo_cons (s : Sys) (a : Action) (rest : List Action)
    (hstack : s.redoStack = a :: rest) :
    sysRedo s = { s with layers := appendShape s.layers a, redoStack := rest,
                         undoStack := a :: s.undoStack } := by
  unfold sysRedo
  rw [hstack]

theorem popLastShape_some (ls : List Layer) (li : Nat) (layer : Layer)
    (hL : ls[li]? = some layer) (hne : layer.shapes.isEmpty = false) :
    popLastShape ls li =
      some (updateAt li (fun l => { l with shapes := l.shapes.dropLast }) ls) := by
  unfold popLastShape
  rw [hL]
  simp [hne]

/-- Transport of coherence along a state whose layers, undo stack and redo
stack agree with a coherent state's. -/
theorem coherent_of_same_parts {s s' : Sys} (h : Coherent s)
    (hl : s'.layers = s.layers) (hu : s'.undoStack = s.undoStack)
    (hr : s'.redoStack = s.redoStack) : Coherent s' := by
  refine ⟨?_, ?_, ?_⟩
  · rw [hu, hl]; exact h.undoRange
  · rw [hr, hl]; exact h.redoRange
  · intro li layer hL
    rw [hu]
    exact h.tailShapes li layer (by rw [← hl]; exact hL)

/-- Coherence holds whenever both stacks are empty. -/
theorem coherent_of_empty_stacks (s : Sys) (hu : s.undoStack = [])
    (hr : s.redoStack = []) : Coherent s := by
  refine ⟨?_, ?_, ?_⟩
  · rw [hu]; intro a ha; cases ha
  · rw [hr]; intro a ha; cases ha
  · intro li layer hL
    rw [hu]
    exact ⟨layer.shapes, by simp [undoShapesFor]⟩

/-- Coherence is unaffected by an in-place layer update that keeps every
shape list intact (the visibility/lock toggles). -/
theorem coherent_updateAt_shapes {s : Sys} (h : Coherent s) (i : Nat)
    (f : Layer → Layer) (hf : ∀ l, (f l).shapes = l.shapes) :
    Coherent { s with layers := updateAt i f s.layers } := by
  refine ⟨?_, ?_, ?_⟩
  · intro a ha
    have := h.undoRange a ha
    show a.li < (updateAt i f s.layers).length
    rw [length_updateAt]; exact this
  · intro a ha
    have := h.redoRange a ha
    show a.li < (updateAt i f s.layers).length
    rw [length_updateAt]; exact this
  · intro li layer hL
    have hL' : (updateAt i f s.layers)[li]? = some layer := hL
    by_cases hli : i = li
    · subst hli
      rw [getElem?_updateAt_self] at hL'
      obtain ⟨orig, horig, hfo⟩ := Option.map_eq_some'.mp hL'
      obtain ⟨pre, hpre⟩ := h.tailShapes i orig horig
      exact ⟨pre, by rw [← hfo, hf orig, hpre]⟩
    · rw [getElem?_updateAt_ne i li f s.layers hli] at hL'
      exact h.tailShapes li layer hL'

theorem coherent_startPlace {s : Sys} (h : Coherent s) (x y : ℚ) :
    Coherent (startPlace s x y) :=
  coherent_of_same_parts h rfl rfl rfl

theorem coherent_updatePreview {s : Sys} (h : Coherent s) (x y : ℚ) :
    Coherent (updatePreview s x y) := by
  unfold updatePreview
  split
  · split
    · exact coherent_of_same_parts h rfl rfl rfl
    · exact h
  · exact h

theorem coherent_switchLayer {s : Sys} (h : Coherent s) (i : Int) :
    Coherent (switchLayer s i) := by
  unfold switchLayer
  split
  · exact coherent_of_same_parts h rfl rfl rfl
  · exact h

theorem coherent_toggleVisibility {s : Sys} (h : Coherent s) (i : Int) :
    Coherent (toggleVisibility s i) := by
  unfold toggleVisibility
  split
  · exact coherent_updateAt_shapes h _ _ (fun l => rfl)
  · exact h

theorem coherent_toggleLock {s : Sys} (h : Coherent s) (i : Int) :
    Coherent (toggleLock s i) := by
  unfold toggleLock
  split
  · exact coherent_updateAt_shapes h _ _ (fun l => rfl)
  · exact h

theorem coherent_addLayer {s : Sys} (h : Coherent s) (nm : Option String) :
    Coherent (addLayer s nm) := by
  have hlen : (addLayer s nm).layers.length = s.layers.length + 1 := by
    simp [addLayer]
  refine ⟨?_, ?_, ?_⟩
  · intro a ha
    have := h.undoRange a ha
    omega
  · intro a ha
    have := h.redoRange a ha
    omega
  · intro li layer hL
    have hL' : (s.layers ++
        [Layer.new (resolveLayerName s.layers.length nm)])[li]? = some layer := hL
    by_cases hli : li < s.layers.length
    · rw [List.getElem?_append, if_pos hli] at hL'
      exact h.tailShapes li layer hL'
    · have hlt : li < s.layers.length + 1 := by
        have := (List.getElem?_eq_some.mp hL').choose
        simp at this
        omega
      have heq : li = s.layers.length := by omega
      subst heq
      rw [List.getElem?_append, if_neg (by omega), Nat.sub_self] at hL'
      have hlayer : layer = Layer.new (resolveLayerName s.layers.length nm) := by
        simpa using hL'.symm
      refine ⟨[], ?_⟩
      rw [hlayer]
      show ([] : List ShapeVal) = [] ++ undoShapesFor s.layers.length s.undoStack
      rw [List.nil_append,
        undoShapesFor_eq_nil _ _ (fun a ha => Nat.ne_of_lt (h.undoRange a ha))]

theorem coherent_commitShape {s : Sys} (h : Coherent s) (v : ShapeVal) :
    Coherent (commitShape v s) := by
  unfold commitShape
  split
  · exact h
  · rename_i layer hlayer
    split
    · exact h
    · have hcur : s.layers[s.currentLayerIndex]? = some layer := by
        unfold getCurrentLayer at hlayer
        by_cases he : s.layers.isEmpty
        · rw [if_pos he] at hlayer; cases hlayer
        · rwa [if_neg he] at hlayer
      have hrange : s.currentLayerIndex < s.layers.length :=
        (List.getElem?_eq_some.mp hcur).choose
      refine ⟨?_, ?_, ?_⟩
      · intro a ha
        show a.li < (updateAt s.currentLayerIndex _ s.layers).length
        rw [length_updateAt]
        rcases List.mem_cons.mp ha with rfl | hmem
        · exact hrange
        · exact h.undoRange a hmem
      · intro a ha
        cases ha
      · intro li layer' hL
        have hL' : (updateAt s.currentLayerIndex
            (fun l => { l with shapes := l.shapes ++ [v] }) s.layers)[li]? =
            some layer' := hL
        by_cases hli : s.currentLayerIndex = li
        · subst hli
          rw [getElem?_updateAt_self, hcur] at hL'
          have hlay' : layer' = { layer with shapes := layer.shapes ++ [v] } := by
            simpa using hL'.symm
          obtain ⟨pre, hpre⟩ := h.tailShapes s.currentLayerIndex layer hcur
          refine ⟨pre, ?_⟩
          rw [hlay']
          show layer.shapes ++ [v] = pre ++
            undoShapesFor s.currentLayerIndex
              (⟨s.currentLayerIndex, v⟩ :: s.undoStack)
          rw [undoShapesFor_cons_self ⟨s.currentLayerIndex, v⟩ s.undoStack,
            hpre, List.append_assoc]
        · rw [getElem?_updateAt_ne _ _ _ _ hli] at hL'
          obtain ⟨pre, hpre⟩ := h.tailShapes li layer' hL'
          refine ⟨pre, ?_⟩
          rw [hpre]
          show pre ++ undoShapesFor li s.undoStack = pre ++
            undoShapesFor li (⟨s.currentLayerIndex, v⟩ :: s.undoStack)
          rw [undoShapesFor_cons_ne li ⟨s.currentLayerIndex, v⟩ s.undoStack hli]

theorem coherent_clear_flags {s : Sys} (h : Coherent s) (b : Bool)
    (pv : ShapeVal) :
    Coherent { s with placing := b, previewShape := pv } :=
  coherent_of_same_parts h rfl rfl rfl

theorem coherent_finishPlace {s : Sys} (h : Coherent s)
    (hook : ShapeVal → ShapeVal) (x y : ℚ) :
    Coherent (finishPlace hook s x y) := by
  unfold finishPlace
  apply coherent_clear_flags
  split
  · split
    · exact coherent_commitShape h _
    · exact h
  · exact h

theorem coherent_sysUndo {s s' : Sys} (h : Coherent s)
    (hstep : sysUndo s = some s') : Coherent s' := by
  cases hstack : s.undoStack with
  | nil =>
    unfold sysUndo at hstep
    rw [hstack] at hstep
    injection hstep with hs
    subst hs
    exact h
  | cons a rest =>
    have hrange : a.li < s.layers.length :=
      h.undoRange a (by rw [hstack]; exact List.mem_cons_self a rest)
    obtain ⟨layer0, hL0⟩ : ∃ layer0, s.layers[a.li]? = some layer0 :=
      ⟨_, List.getElem?_eq_getElem hrange⟩
    obtain ⟨pre, hpre⟩ := h.tailShapes a.li layer0 hL0
    rw [hstack, undoShapesFor_cons_self] at hpre
    have hshapes : layer0.shapes =
        (pre ++ undoShapesFor a.li rest) ++ [a.shape] := by
      rw [hpre, List.append_assoc]
    have hnonempty : layer0.shapes.isEmpty = false := by
      rw [hshapes]
      exact isEmpty_false_of_length_pos _ (by simp)
    have hpop := popLastShape_some s.layers a.li layer0 hL0 hnonempty
    rw [sysUndo_cons s a rest hstack _ hpop] at hstep
    injection hstep with hs
    subst hs
    refine ⟨?_, ?_, ?_⟩
    · intro b hb
      show b.li < (updateAt a.li _ s.layers).length
      rw [length_updateAt]
      exact h.undoRange b (by rw [hstack]; exact List.mem_cons_of_mem a hb)
    · intro b hb
      show b.li < (updateAt a.li _ s.layers).length
      rw [length_updateAt]
      rcases List.mem_cons.mp hb with rfl | hmem
      · exact hrange
      · exact h.redoRange b hmem
    · intro li layer' hL
      have hL' : (updateAt a.li
          (fun l => { l with shapes := l.shapes.dropLast }) s.layers)[li]? =
          some layer' := hL
      by_cases hli : a.li = li
      · subst hli
        rw [getElem?_updateAt_self, hL0] at hL'
        have hlay' : layer' = { layer0 with shapes := layer0.shapes.dropLast } := by
          simpa using hL'.symm
        refine ⟨pre, ?_⟩
        rw [hlay']
        show layer0.shapes.dropLast = pre ++ undoShapesFor a.li rest
        rw [hshapes, List.dropLast_concat]
      · rw [getElem?_updateAt_ne _ _ _ _ hli] at hL'
        obtain ⟨pre', hpre'⟩ := h.tailShapes li layer' hL'
        rw [hstack, undoShapesFor_cons_ne li a rest hli] at hpre'
        exact ⟨pre', hpre'⟩

theorem coherent_sysRedo {s : Sys} (h : Coherent s) : Coherent (sysRedo s) := by
  cases hstack : s.redoStack with
  | nil =>
    unfold sysRedo
    rw [hstack]
    exact h
  | cons a rest =>
    rw [sysRedo_cons s a rest hstack]
    have hrange : a.li < s.layers.length :=
      h.redoRange a (by rw [hstack]; exact List.mem_cons_self a rest)
    obtain ⟨layer0, hL0⟩ : ∃ layer0, s.layers[a.li]? = some layer0 :=
      ⟨_, List.getElem?_eq_getElem hrange⟩
    refine ⟨?_, ?_, ?_⟩
    · intro b hb
      show b.li < (updateAt a.li _ s.layers).length
      rw [length_updateAt]
      rcases List.mem_cons.mp hb with rfl | hmem
      · exact hrange
      · exact h.undoRange b hmem
    · intro b hb
      show b.li < (updateAt a.li _ s.layers).length
      rw [length_updateAt]
      exact h.redoRange b (by rw [hstack]; exact List.mem_cons_of_mem a hb)
    · intro li layer' hL
      have hL' : (updateAt a.li
          (fun l => { l with shapes := l.shapes ++ [a.shape] }) s.layers)[li]? =
          some layer' := hL
      by_cases hli : a.li = li
      · subst hli
        rw [getElem?_updateAt_self, hL0] at hL'
        have hlay' : layer' = { layer0 with shapes := layer0.shapes ++ [a.shape] } := by
          simpa using hL'.symm
        obtain ⟨pre, hpre⟩ := h.tailShapes a.li layer0 hL0
        refine ⟨pre, ?_⟩
        rw [hlay']
        show layer0.shapes ++ [a.shape] = pre ++
          undoShapesFor a.li (a :: s.undoStack)
        rw [undoShapesFor_cons_self a s.undoStack, hpre, List.append_assoc]
      · rw [getElem?_updateAt_ne _ _ _ _ hli] at hL'
        obtain ⟨pre, hpre⟩ := h.tailShapes li layer' hL'
        refine ⟨pre, ?_⟩
        rw [hpre]
        show pre ++ undoShapesFor li s.undoStack = pre ++
          undoShapesFor li (a :: s.undoStack)
        rw [undoShapesFor_cons_ne li a s.undoStack hli]

/-- Every reachable state is coherent. -/
theorem reach_coherent {hook : ShapeVal → ShapeVal} {s : Sys}
    (h : Reach hook s) : Coherent s := by
  induction h with
  | base s hu hr => exact coherent_of_empty_stacks s hu hr
  | startP x y _ ih => exact coherent_startPlace ih x y
  | preview x y _ ih => exact coherent_updatePreview ih x y
  | finish x y _ ih => exact coherent_finishPlace ih hook x y
  | undoStep _ hstep ih => exact coherent_sysUndo ih hstep
  | redoStep _ ih => exact coherent_sysRedo ih
  | switch i _ ih => exact coherent_switchLayer ih i
  | vis i _ ih => exact coherent_toggleVisibility ih i
  | lock i _ ih => exact coherent_toggleLock ih i
  | add nm _ ih => exact coherent_addLayer ih nm

/-- C5: in every reachable state with a non-empty undo stack (its actions
recorded by `finish_place`), `undo()` succeeds and an immediately following
`redo()` returns the state — layer shape sequences, undo stack and redo
stack — to exactly what it was before the undo. -/
theorem undo_then_redo_restores_state (hook : ShapeVal → ShapeVal) (s : Sys)
    (hreach : Reach hook s) (hne : s.undoStack ≠ []) :
    ∃ s', sysUndo s = some s' ∧ sysRedo s' = s := by
  have hc := reach_coherent hreach
  obtain ⟨a, rest, hstack⟩ : ∃ a rest, s.undoStack = a :: rest := by
    cases hst : s.undoStack with
    | nil => exact absurd hst hne
    | cons a rest => exact ⟨a, rest, rfl⟩
  have hrange : a.li < s.layers.length :=
    hc.undoRange a (by rw [hstack]; exact List.mem_cons_self a rest)
  obtain ⟨layer0, hL0⟩ : ∃ layer0, s.layers[a.li]? = some layer0 :=
    ⟨_, List.getElem?_eq_getElem hrange⟩
  obtain ⟨pre, hpre⟩ := hc.tailShapes a.li layer0 hL0
  rw [hstack, undoShapesFor_cons_self] at hpre
  have hshapes : layer0.shapes =
      (pre ++ undoShapesFor a.li rest) ++ [a.shape] := by
    rw [hpre, List.append_assoc]
  have hnonempty : layer0.shapes.isEmpty = false := by
    rw [hshapes]
    exact isEmpty_false_of_length_pos _ (by simp)
  have hpop := popLastShape_some s.layers a.li layer0 hL0 hnonempty
  refine ⟨_, sysUndo_cons s a rest hstack _ hpop, ?_⟩
  rw [sysRedo_cons _ a s.redoStack rfl]
  show ({ s with
          layers := appendShape
            (updateAt a.li (fun l => { l with shapes := l.shapes.dropLast })
              s.layers) a,
          undoStack := a :: rest,
          redoStack := s.redoStack } : Sys) = s
  have hlayers : appendShape
      (updateAt a.li (fun l => { l with shapes := l.shapes.dropLast })
        s.layers) a = s.layers := by
    show updateAt a.li _ (updateAt a.li _ s.layers) = s.layers
    rw [updateAt_updateAt]
    apply updateAt_eq_self a.li _ s.layers layer0 hL0
    show ({ layer0 with
            shapes := layer0.shapes.dropLast ++ [a.shape] } : Layer) = layer0
    rw [hshapes, List.dropLast_concat, ← hshapes]
  rw [hlayers, ← hstack]

/-- Witness for C5: a freshly placed shape, then undo and redo. -/
theorem undo_then_redo_witness :
    ∃ s', sysUndo (finishPlace id (startPlace ellipseSys 0 0) 2 3) = some s' ∧
      sysRedo s' = finishPlace id (startPlace ellipseSys 0 0) 2 3 :=
  undo_then_redo_restores_state id _
    (Reach.finish 2 3 (Reach.startP 0 0 (Reach.base ellipseSys rfl rfl)))
    (by decide)

/-! Machinery for the hook-ordering claim (C2).  A priority-sorted callback
list is determined by its per-priority sublists; the incrementally re-sorted
registry and the spec-side one-shot stable ordering are both sorted and have
the same per-priority sublists, hence are equal. -/

theorem mem_hookInsert {α : Type} (x z : Int × HookCb α) :
    ∀ l : List (Int × HookCb α), z ∈ hookInsert x l ↔ z = x ∨ z ∈ l := by
  intro l
  induction l with
  | nil => simp [hookInsert]
  | cons y ys ih =>
    by_cases hxy : x.1 < y.1
    · rw [show hookInsert x (y :: ys) = x :: y :: ys from by
        simp [hookInsert, hxy]]
      simp only [List.mem_cons]
    · rw [show hookInsert x (y :: ys) = y :: hookInsert x ys from by
        simp [hookInsert, hxy]]
      simp only [List.mem_cons, ih]
      tauto

theorem hookInsert_sorted {α : Type} (x : Int × HookCb α) :
    ∀ l : List (Int × HookCb α), l.Pairwise priLE →
      (hookInsert x l).Pairwise priLE := by
  intro l
  induction l with
  | nil =>
    intro _
    exact List.pairwise_singleton priLE x
  | cons y ys ih =>
    intro hl
    by_cases hxy : x.1 < y.1
    · rw [show hookInsert x (y :: ys) = x :: y :: ys from by
        simp [hookInsert, hxy]]
      refine List.Pairwise.cons ?_ hl
      intro z hz
      rcases List.mem_cons.mp hz with rfl | hz'
      · exact le_of_lt hxy
      · have hyz : y.1 ≤ z.1 := List.rel_of_pairwise_cons hl hz'
        show x.1 ≤ z.1
        omega
    · rw [show hookInsert x (y :: ys) = y :: hookInsert x ys from by
        simp [hookInsert, hxy]]
      refine List.Pairwise.cons ?_ (ih (List.Pairwise.of_cons hl))
      intro z hz
      rcases (mem_hookInsert x z ys).mp hz with rfl | hz'
      · show y.1 ≤ z.1
        omega
      · exact List.rel_of_pairwise_cons hl hz'

theorem prFilter_eq_nil {α : Type} (p : Int) (l : List (Int × HookCb α))
    (h : ∀ z ∈ l, z.1 ≠ p) : prFilter p l = [] := by
  apply List.filter_eq_nil_iff.mpr
  intro a ha
  simp [h a ha]

theorem prFilter_hookInsert_self {α : Type} (x : Int × HookCb α) :
    ∀ l : List (Int × HookCb α), l.Pairwise priLE →
      prFilter x.1 (hookInsert x l) = prFilter x.1 l ++ [x] := by
  intro l
  induction l with
  | nil => simp [hookInsert, prFilter]
  | cons y ys ih =>
    intro hl
    by_cases hxy : x.1 < y.1
    · rw [show hookInsert x (y :: ys) = x :: y :: ys from by
        simp [hookInsert, hxy]]
      have hnil : prFilter x.1 (y :: ys) = [] := by
        apply prFilter_eq_nil
        intro z hz
        rcases List.mem_cons.mp hz with rfl | hz'
        · omega
        · have hyz : y.1 ≤ z.1 := List.rel_of_pairwise_cons hl hz'
          omega
      rw [show prFilter x.1 (x :: y :: ys) = x :: prFilter x.1 (y :: ys) from by
        simp [prFilter], hnil]
      rfl
    · rw [show hookInsert x (y :: ys) = y :: hookInsert x ys from by
        simp [hookInsert, hxy]]
      have ht := ih (List.Pairwise.of_cons hl)
      by_cases hy : y.1 = x.1
      · rw [show prFilter x.1 (y :: hookInsert x ys) =
            y :: prFilter x.1 (hookInsert x ys) from by simp [prFilter, hy],
          show prFilter x.1 (y :: ys) = y :: prFilter x.1 ys from by
            simp [prFilter, hy],
          ht]
        rfl
      · rw [show prFilter x.1 (y :: hookInsert x ys) =
            prFilter x.1 (hookInsert x ys) from by simp [prFilter, hy],
          show prFilter x.1 (y :: ys) = prFilter x.1 ys from by
            simp [prFilter, hy],
          ht]

theorem prFilter_hookInsert_ne {α : Type} (x : Int × HookCb α) (p : Int)
    (hp : x.1 ≠ p) :
    ∀ l : List (Int × HookCb α),
      prFilter p (hookInsert x l) = prFilter p l := by
  intro l
  induction l with
  | nil => simp [hookInsert, prFilter, hp]
  | cons y ys ih =>
    by_cases hxy : x.1 < y.1
    · rw [show hookInsert x (y :: ys) = x :: y :: ys from by
        simp [hookInsert, hxy]]
      simp [prFilter, hp]
    · rw [show hookInsert x (y :: ys) = y :: hookInsert x ys from by
        simp [hookInsert, hxy]]
      by_cases hy : y.1 = p
      · rw [show prFilter p (y :: hookInsert x ys) =
            y :: prFilter p (hookInsert x ys) from by simp [prFilter, hy],
          show prFilter p (y :: ys) = y :: prFilter p ys from by
            simp [prFilter, hy], ih]
      · rw [show prFilter p (y :: hookInsert x ys) =
            prFilter p (hookInsert x ys) from by simp [prFilter, hy],
          show prFilter p (y :: ys) = prFilter p ys from by
            simp [prFilter, hy], ih]

theorem pySort_aux_sorted {α : Type} :
    ∀ (l : List (Int × HookCb α)) (acc : List (Int × HookCb α)),
      acc.Pairwise priLE →
      (l.foldl (fun a x => hookInsert x a) acc).Pairwise priLE := by
  intro l
  induction l with
  | nil => intro acc h; exact h
  | cons x xs ih =>
    intro acc h
    exact ih _ (hookInsert_sorted x acc h)

theorem pySort_aux_filter {α : Type} (p : Int) :
    ∀ (l : List (Int × HookCb α)) (acc : List (Int × HookCb α)),
      acc.Pairwise priLE →
      prFilter p (l.foldl (fun a x => hookInsert x a) acc) =
        prFilter p acc ++ prFilter p l := by
  intro l
  induction l with
  | nil =>
    intro acc h
    simp [prFilter]
  | cons x xs ih =>
    intro acc h
    have hstep := ih (hookInsert x acc) (hookInsert_sorted x acc h)
    show prFilter p (xs.foldl (fun a x => hookInsert x a) (hookInsert x acc)) = _
    rw [hstep]
    by_cases hx : x.1 = p
    · rw [show prFilter p (hookInsert x acc) = prFilter p acc ++ [x] from by
        rw [← hx]; exact prFilter_hookInsert_self x acc h,
        show prFilter p (x :: xs) = x :: prFilter p xs from by
          simp [prFilter, hx],
        List.append_assoc]
      rfl
    · rw [prFilter_hookInsert_ne x p hx acc,
        show prFilter p (x :: xs) = prFilter p xs from by simp [prFilter, hx]]

theorem pySort_sorted {α : Type} (l : List (Int × HookCb α)) :
    (pySortByPriority l).Pairwise priLE :=
  pySort_aux_sorted l [] List.Pairwise.nil

theorem pySort_filter {α : Type} (p : Int) (l : List (Int × HookCb α)) :
    prFilter p (pySortByPriority l) = prFilter p l := by
  have h := pySort_aux_filter p l [] List.Pairwise.nil
  simpa [prFilter] using h

theorem regsFor_cons {α : Type} (name : String) (r : String × Int × HookCb α)
    (rs : List (String × Int × HookCb α)) :
    regsFor name (r :: rs) =
      if r.1 = name then r.2 :: regsFor name rs else regsFor name rs := by
  by_cases h : r.1 = name <;> simp [regsFor, h]

theorem addHook_hooks_sorted {α : Type} (m : HookManager α) (nm0 : String)
    (p0 : Int) (cb : HookCb α)
    (h : ∀ nm, (m.hooks nm).Pairwise priLE) :
    ∀ nm, ((addHook m nm0 p0 cb).hooks nm).Pairwise priLE := by
  intro nm
  show (if nm = nm0 then
    pySortByPriority (m.hooks nm0 ++ [(p0, cb)]) else m.hooks nm).Pairwise priLE
  split
  · exact pySort_sorted _
  · exact h nm

theorem buildReg_aux_sorted {α : Type} :
    ∀ (rs : List (String × Int × HookCb α)) (m : HookManager α),
      (∀ nm, (m.hooks nm).Pairwise priLE) →
      ∀ nm, ((rs.foldl (fun m r => addHook m r.1 r.2.1 r.2.2) m).hooks nm).Pairwise
        priLE := by
  intro rs
  induction rs with
  | nil => intro m h nm; exact h nm
  | cons r rest ih =>
    intro m h nm
    exact ih _ (addHook_hooks_sorted m r.1 r.2.1 r.2.2 h) nm

theorem buildReg_aux_filter {α : Type} (p : Int) (name : String) :
    ∀ (rs : List (String × Int × HookCb α)) (m : HookManager α),
      (∀ nm, (m.hooks nm).Pairwise priLE) →
      prFilter p ((rs.foldl (fun m r => addHook m r.1 r.2.1 r.2.2) m).hooks name) =
        prFilter p (m.hooks name) ++ prFilter p (regsFor name rs) := by
  intro rs
  induction rs with
  | nil =>
    intro m h
    simp [regsFor, prFilter]
  | cons r rest ih =>
    intro m h
    have hstep := ih (addHook m r.1 r.2.1 r.2.2)
      (addHook_hooks_sorted m r.1 r.2.1 r.2.2 h)
    show prFilter p ((rest.foldl (fun m r => addHook m r.1 r.2.1 r.2.2)
      (addHook m r.1 r.2.1 r.2.2)).hooks name) = _
    rw [hstep, regsFor_cons]
    by_cases hname : r.1 = name
    · rw [show (addHook m r.1 r.2.1 r.2.2).hooks name =
          pySortByPriority (m.hooks r.1 ++ [(r.2.1, r.2.2)]) from by
        show (if name = r.1 then _ else _) = _
        rw [if_pos hname.symm]]
      rw [pySort_filter, hname, if_pos rfl]
      rw [show prFilter p (m.hooks name ++ [(r.2.1, r.2.2)]) =
          prFilter p (m.hooks name) ++ prFilter p [(r.2.1, r.2.2)] from by
        simp [prFilter]]
      rw [List.append_assoc]
      congr 1
      by_cases hp : r.2.1 = p
      · subst hp
        simp [prFilter, Prod.mk.eta]
      · simp [prFilter, hp]
    · rw [show (addHook m r.1 r.2.1 r.2.2).hooks name = m.hooks name from by
        show (if name = r.1 then _ else _) = _
        rw [if_neg (fun he => hname he.symm)]]
      rw [if_neg hname]

theorem mem_prFilter_fst {α : Type} (p : Int) (l : List (Int × HookCb α))
    (z : Int × HookCb α) (hz : z ∈ prFilter p l) : z.1 = p := by
  have h := List.of_mem_filter hz
  simpa using h

theorem mem_of_mem_prFilter {α : Type} (p : Int) (l : List (Int × HookCb α))
    (z : Int × HookCb α) (hz : z ∈ prFilter p l) : z ∈ l :=
  List.mem_of_mem_filter hz

theorem specSorted_sorted {α : Type} (l : List (Int × HookCb α)) :
    (specSorted l).Pairwise priLE := by
  unfold specSorted
  have hks : ((l.map Prod.fst).toFinset.sort (· ≤ ·)).Sorted (· ≤ ·) :=
    Finset.sort_sorted _ _
  generalize hke : (l.map Prod.fst).toFinset.sort (· ≤ ·) = ks at hks ⊢
  clear hke
  induction ks with
  | nil => simp
  | cons q ks ih =>
    rw [List.flatMap_cons, List.pairwise_append]
    refine ⟨?_, ih (List.Pairwise.of_cons hks), ?_⟩
    · apply List.pairwise_of_forall_mem_list
      intro a ha b hb
      have h1 := mem_prFilter_fst q l a ha
      have h2 := mem_prFilter_fst q l b hb
      show a.1 ≤ b.1
      omega
    · intro a ha b hb
      obtain ⟨q2, hq2, hb2⟩ := List.mem_flatMap.mp hb
      have h1 := mem_prFilter_fst q l a ha
      have h2 := mem_prFilter_fst q2 l b hb2
      have h3 : q ≤ q2 := List.rel_of_pairwise_cons hks hq2
      show a.1 ≤ b.1
      omega

theorem prFilter_prFilter_self {α : Type} (q : Int) (l : List (Int × HookCb α)) :
    prFilter q (prFilter q l) = prFilter q l := by
  unfold prFilter
  rw [List.filter_filter]
  apply List.filter_congr
  intro a _
  exact Bool.and_self _

theorem prFilter_prFilter_ne {α : Type} (p q : Int) (hq : q ≠ p)
    (l : List (Int × HookCb α)) :
    prFilter p (prFilter q l) = [] := by
  unfold prFilter
  rw [List.filter_filter]
  apply List.filter_eq_nil_iff.mpr
  intro a _
  simp only [Bool.and_eq_true, beq_iff_eq, not_and]
  intro h1 h2
  exact hq (h2 ▸ h1 ▸ rfl)

theorem prFilter_flatMap {α : Type} (p : Int) (l : List (Int × HookCb α)) :
    ∀ ks : List Int, ks.Nodup →
      prFilter p (ks.flatMap (fun q => prFilter q l)) =
        if p ∈ ks then prFilter p l else [] := by
  intro ks
  induction ks with
  | nil => simp [prFilter]
  | cons q ks ih =>
    intro hnd
    rw [List.flatMap_cons,
      show prFilter p (prFilter q l ++ ks.flatMap (fun q => prFilter q l)) =
        prFilter p (prFilter q l) ++
          prFilter p (ks.flatMap (fun q => prFilter q l)) from by
        unfold prFilter; rw [List.filter_append],
      ih (List.Nodup.of_cons hnd)]
    by_cases hq : q = p
    · subst hq
      rw [prFilter_prFilter_self,
        if_neg (List.nodup_cons.mp hnd).1,
        if_pos (List.mem_cons_self q ks), List.append_nil]
    · rw [prFilter_prFilter_ne p q hq, List.nil_append]
      by_cases hp : p ∈ ks
      · rw [if_pos hp, if_pos (List.mem_cons_of_mem q hp)]
      · rw [if_neg hp, if_neg (by
          intro hmem
          rcases List.mem_cons.mp hmem with rfl | hmem'
          · exact hq rfl
          · exact hp hmem')]

theorem specSorted_filter {α : Type} (p : Int) (l : List (Int × HookCb α)) :
    prFilter p (specSorted l) = prFilter p l := by
  unfold specSorted
  rw [prFilter_flatMap p l _ (Finset.sort_nodup _ _)]
  by_cases hp : p ∈ (l.map Prod.fst).toFinset.sort (· ≤ ·)
  · rw [if_pos hp]
  · rw [if_neg hp]
    have hnot : ∀ z ∈ l, z.1 ≠ p := by
      intro z hz he
      apply hp
      rw [Finset.mem_sort, List.mem_toFinset]
      exact he ▸ List.mem_map_of_mem Prod.fst hz
    rw [prFilter_eq_nil p l hnot]

theorem sorted_prFilter_unique {α : Type} :
    ∀ l1 l2 : List (Int × HookCb α), l1.Pairwise priLE → l2.Pairwise priLE →
      (∀ p, prFilter p l1 = prFilter p l2) → l1 = l2 := by
  intro l1
  induction l1 with
  | nil =>
    intro l2 _ _ hfil
    cases l2 with
    | nil => rfl
    | cons b t2 =>
      have h := hfil b.1
      simp [prFilter] at h
  | cons a t1 ih =>
    intro l2 h1 h2 hfil
    cases l2 with
    | nil =>
      have h := hfil a.1
      simp [prFilter] at h
    | cons b t2 =>
      have hmem2 : ∃ z ∈ b :: t2, z.1 = a.1 := by
        have hfa := hfil a.1
        rw [show prFilter a.1 (a :: t1) = a :: prFilter a.1 t1 from by
          simp [prFilter]] at hfa
        have ha : a ∈ prFilter a.1 (b :: t2) := by
          rw [← hfa]; exact List.mem_cons_self a _
        exact ⟨a, mem_of_mem_prFilter _ _ _ ha, rfl⟩
      have hmem1 : ∃ z ∈ a :: t1, z.1 = b.1 := by
        have hfb := hfil b.1
        rw [show prFilter b.1 (b :: t2) = b :: prFilter b.1 t2 from by
          simp [prFilter]] at hfb
        have hb : b ∈ prFilter b.1 (a :: t1) := by
          rw [hfb]; exact List.mem_cons_self b _
        exact ⟨b, mem_of_mem_prFilter _ _ _ hb, rfl⟩
      have hba : b.1 ≤ a.1 := by
        obtain ⟨z, hz, hz1⟩ := hmem2
        rcases List.mem_cons.mp hz with rfl | hz'
        · omega
        · have := List.rel_of_pairwise_cons h2 hz'
          show b.1 ≤ a.1
          have hble : b.1 ≤ z.1 := this
          omega
      have hab : a.1 ≤ b.1 := by
        obtain ⟨z, hz, hz1⟩ := hmem1
        rcases List.mem_cons.mp hz with rfl | hz'
        · omega
        · have hale : a.1 ≤ z.1 := List.rel_of_pairwise_cons h1 hz'
          omega
      have habe : a.1 = b.1 := by omega
      have habeq : a = b := by
        have hfa := hfil a.1
        rw [show prFilter a.1 (a :: t1) = a :: prFilter a.1 t1 from by
          simp [prFilter]] at hfa
        rw [show prFilter a.1 (b :: t2) = b :: prFilter a.1 t2 from by
          simp [prFilter, ← habe]] at hfa
        exact (List.cons_eq_cons.mp hfa).1
      subst habeq
      have htails : ∀ p, prFilter p t1 = prFilter p t2 := by
        intro p
        have hf := hfil p
        by_cases hp : a.1 = p
        · rw [show prFilter p (a :: t1) = a :: prFilter p t1 from by
            simp [prFilter, hp],
            show prFilter p (a :: t2) = a :: prFilter p t2 from by
            simp [prFilter, hp]] at hf
          exact (List.cons_eq_cons.mp hf).2
        · rw [show prFilter p (a :: t1) = prFilter p t1 from by
            simp [prFilter, hp],
            show prFilter p (a :: t2) = prFilter p t2 from by
            simp [prFilter, hp]] at hf
          exact hf
      rw [ih t2 (List.Pairwise.of_cons h1) (List.Pairwise.of_cons h2) htails]

/-- C2: dispatching a name over a registry built by any sequence of
`add_hook` registrations returns the left fold of the registered callback
chain over the initial value, the chain ordered ascending by priority with
equal priorities in registration order (the spec-side ordering `specSorted`);
a callback returning the "no change" sentinel (`none`) leaves the current
value unmodified, a non-sentinel return replaces it, and a name with no
registrations has an empty chain, so the initial value passes through
unchanged.  The second conjunct checks the order concretely: priorities
[5, 1, 5] run as the priority-1 callback first, then the two priority-5
callbacks in registration order. -/
theorem run_hooks_priority_fold :
    (∀ {α : Type} (rs : List (String × Int × HookCb α)) (name : String)
      (v : α),
      runHooks (buildHookManager rs) name v =
        hookFold v (specSorted (regsFor name rs))) ∧
    runHooks (buildHookManager
        [("h", 5, tagCb 1), ("h", 1, tagCb 2), ("h", 5, tagCb 3)]) "h" [] =
      [2, 1, 3] := by
  constructor
  · intro α rs name v
    have hreg : (buildHookManager rs).hooks name =
        specSorted (regsFor name rs) := by
      apply sorted_prFilter_unique
      · exact buildReg_aux_sorted rs HookManager.empty
          (fun _ => List.Pairwise.nil) name
      · exact specSorted_sorted _
      · intro p
        rw [specSorted_filter]
        have h := buildReg_aux_filter p name rs HookManager.empty
          (fun _ => List.Pairwise.nil)
        simpa [prFilter] using h
    unfold runHooks
    rw [hreg]
  · decide

end PyDraw
